import Mathlib

set_option maxHeartbeats 1000000

/-!
Verification of the fondabots-lib display-channel reconciler.

This file shallowly embeds the parts of the repository that the claims
concern: the `Affichan` reconciler (`src/affichan.rs`: `update`,
`remove`, `check_message_deletion`, `_load_from_save`,
`_load_from_messages`, `init`), the sorting helper
(`src/tools.rs`: `sort_by_date` and `_sort_merge`) and the bounded undo
history of the bot (`src/lib.rs`: `Bot::archive`, `Bot::annuler`).

Remote Discord calls (message send, edit, delete, fetch) are modelled by
oracles passed as parameters: a send oracle returns `some handle` on
success and `none` on failure, an edit oracle returns a success Boolean,
and so on.  Rust `HashMap`s are modelled by association lists with
unique keys; the hypotheses of the theorems state that key uniqueness
where it is needed.
-/

/-- A Discord message handle: only its id matters for the index. -/
structure Msg where
  id : Nat
deriving DecidableEq, Repr

/-- The domain record type (an implementor of the `Object` trait):
identity, last-modified flag, ordering timestamp (`get_date`) and an
opaque payload standing for all remaining fields. -/
structure Obj where
  id : Nat
  modified : Bool
  date : Int
  payload : Nat
deriving DecidableEq, Repr

/-- Error type (`errors::Error`), restricted to the variants the
embedded operations can produce. -/
inductive Err where
  | objectNotFound
  | yamlParse
  | unloadedItem
  | sendFailed
  | deleteFailed
deriving DecidableEq, Repr

/-- The entity database `HashMap<u64, T>` as an association list. -/
abbrev DB := List (Nat × Obj)

/-- `HashMap::get` on an association list. -/
def lookupA {α : Type} : List (Nat × α) → Nat → Option α
  | [], _ => none
  | (k, v) :: rest, k0 => if k = k0 then some v else lookupA rest k0

/-- `HashMap::contains_key` on an association list. -/
def containsKey {α : Type} (l : List (Nat × α)) (k : Nat) : Bool :=
  (lookupA l k).isSome

/-- `HashMap::remove` on an association list. -/
def removeKey {α : Type} : List (Nat × α) → Nat → List (Nat × α)
  | [], _ => []
  | p :: rest, k => if p.1 = k then removeKey rest k else p :: removeKey rest k

theorem mem_of_lookupA_eq_some {α : Type} {l : List (Nat × α)} {k : Nat} {v : α}
    (h : lookupA l k = some v) : (k, v) ∈ l := by
  induction l with
  | nil => simp [lookupA] at h
  | cons p rest ih =>
    obtain ⟨k1, v1⟩ := p
    by_cases hk : k1 = k
    · subst hk
      simp [lookupA] at h
      subst h
      exact List.mem_cons_self _ _
    · simp [lookupA, hk] at h
      exact List.mem_cons_of_mem _ (ih h)

theorem lookupA_eq_some_of_mem {α : Type} {l : List (Nat × α)} {k : Nat} {v : α}
    (hnd : (l.map Prod.fst).Nodup) (hm : (k, v) ∈ l) : lookupA l k = some v := by
  induction l with
  | nil => simp at hm
  | cons p rest ih =>
    obtain ⟨k1, v1⟩ := p
    simp only [List.map_cons, List.nodup_cons] at hnd
    rcases List.mem_cons.mp hm with heq | htl
    · cases heq
      simp [lookupA]
    · have hkmem : k ∈ rest.map Prod.fst := List.mem_map.mpr ⟨(k, v), htl, rfl⟩
      have hk1 : k1 ≠ k := by
        intro hcontra
        rw [hcontra] at hnd
        exact hnd.1 hkmem
      simp [lookupA, hk1]
      exact ih hnd.2 htl

theorem containsKey_iff_mem_map_fst {α : Type} {l : List (Nat × α)} {k : Nat} :
    containsKey l k = true ↔ k ∈ l.map Prod.fst := by
  induction l with
  | nil => simp [containsKey, lookupA]
  | cons p rest ih =>
    obtain ⟨k1, v1⟩ := p
    by_cases hk : k1 = k
    · subst hk
      simp [containsKey, lookupA]
    · simp only [containsKey, lookupA, if_neg hk, List.map_cons, List.mem_cons]
      rw [containsKey] at ih
      rw [ih]
      constructor
      · exact Or.inr
      · rintro (h | h)
        · exact absurd h.symm hk
        · exact h

theorem containsKey_eq_true_iff {α : Type} {l : List (Nat × α)} {k : Nat} :
    containsKey l k = true ↔ ∃ v, lookupA l k = some v := by
  simp [containsKey, Option.isSome_iff_exists]

theorem lookupA_removeKey_self {α : Type} (l : List (Nat × α)) (k : Nat) :
    lookupA (removeKey l k) k = none := by
  induction l with
  | nil => rfl
  | cons p rest ih =>
    obtain ⟨k1, v1⟩ := p
    by_cases hk : k1 = k
    · simpa [removeKey, hk] using ih
    · simpa [removeKey, lookupA, hk] using ih

theorem lookupA_removeKey_ne {α : Type} (l : List (Nat × α)) (k k0 : Nat)
    (h : k0 ≠ k) : lookupA (removeKey l k) k0 = lookupA l k0 := by
  induction l with
  | nil => rfl
  | cons p rest ih =>
    obtain ⟨k1, v1⟩ := p
    by_cases hk : k1 = k
    · have hne : ¬ (k = k0) := fun hc => h hc.symm
      simp [removeKey, lookupA, hk, hne, ih]
    · by_cases hk0 : k1 = k0
      · have hne : ¬ (k0 = k) := h
        simp [removeKey, lookupA, hk, hk0, hne]
      · simp [removeKey, lookupA, hk, hk0, ih]

/-- One merge step of `tools::_sort_merge`, operating on the reversed
input vectors: the Rust function repeatedly pops the last element of one
of its two input vectors, so it consumes the reversed vectors
front-first.  At each step it pops the vector whose last element has the
strictly greater date, and once a vector is exhausted it flushes the
other back-first.  The `Nat` fuel only bounds the recursion depth (one
unit per emitted element) to make the recursion structural;
`fuel = a.length + b.length` is always sufficient, so `sortMerge` below
never reaches the fuel-exhausted branch. -/
def mergeRevFuel : Nat → List (Nat × Obj) → List (Nat × Obj) → List (Nat × Obj)
  | 0, a, b => a ++ b
  | _ + 1, [], b => b
  | _ + 1, x :: xs, [] => x :: xs
  | fuel + 1, x :: xs, y :: ys =>
    if x.2.date > y.2.date then x :: mergeRevFuel fuel xs (y :: ys)
    else y :: mergeRevFuel fuel (x :: xs) ys

/-- `tools::_sort_merge`. -/
def sortMerge (a b : List (Nat × Obj)) : List (Nat × Obj) :=
  mergeRevFuel (a.length + b.length) a.reverse b.reverse

/-- `tools::sort_by_date`, recursion depth bounded by fuel
(`fuel = v.length` is always sufficient since each level halves the
length, so `sort_by_date` below never reaches the fuel-exhausted
branch). -/
def sortByDateFuel : Nat → List (Nat × Obj) → List (Nat × Obj)
  | 0, v => v
  | fuel + 1, v =>
    if v.length ≤ 1 then v
    else sortMerge (sortByDateFuel fuel (v.take (v.length / 2)))
                   (sortByDateFuel fuel (v.drop (v.length / 2)))

/-- `tools::sort_by_date`. -/
def sort_by_date (v : List (Nat × Obj)) : List (Nat × Obj) :=
  sortByDateFuel v.length v

theorem mergeRevFuel_perm :
    ∀ (fuel : Nat) (a b : List (Nat × Obj)),
      List.Perm (mergeRevFuel fuel a b) (a ++ b) := by
  intro fuel
  induction fuel with
  | zero => intro a b; exact List.Perm.refl _
  | succ fuel ih =>
    intro a b
    match a, b with
    | [], b => simp [mergeRevFuel]
    | x :: xs, [] => simp [mergeRevFuel]
    | x :: xs, y :: ys =>
      rw [mergeRevFuel]
      by_cases hc : x.2.date > y.2.date
      · rw [if_pos hc]
        exact List.Perm.cons x (ih xs (y :: ys))
      · rw [if_neg hc]
        refine List.Perm.trans (List.Perm.cons y (ih (x :: xs) ys)) ?_
        exact List.perm_middle.symm

theorem sortMerge_perm (a b : List (Nat × Obj)) :
    List.Perm (sortMerge a b) (a ++ b) := by
  refine List.Perm.trans (mergeRevFuel_perm _ _ _) ?_
  exact List.Perm.append (List.reverse_perm a) (List.reverse_perm b)

theorem sortByDateFuel_perm :
    ∀ (fuel : Nat) (v : List (Nat × Obj)),
      List.Perm (sortByDateFuel fuel v) v := by
  intro fuel
  induction fuel with
  | zero => intro v; exact List.Perm.refl _
  | succ fuel ih =>
    intro v
    rw [sortByDateFuel]
    by_cases hl : v.length ≤ 1
    · rw [if_pos hl]
    · rw [if_neg hl]
      refine List.Perm.trans (sortMerge_perm _ _) ?_
      refine List.Perm.trans
        (List.Perm.append (ih (v.take (v.length / 2))) (ih (v.drop (v.length / 2)))) ?_
      rw [List.take_append_drop]

theorem sort_by_date_perm (v : List (Nat × Obj)) :
    List.Perm (sort_by_date v) v :=
  sortByDateFuel_perm _ _

theorem mem_sort_by_date_iff {v : List (Nat × Obj)} {p : Nat × Obj} :
    p ∈ sort_by_date v ↔ p ∈ v :=
  (sort_by_date_perm v).mem_iff

/-- The display channel `Affichan<T>`: whether its Discord channel has
been resolved (`PreloadedChannel::Loaded`), its entity-id to message
index (`messages`), and its membership predicate (`test`). -/
structure Affichan where
  chanLoaded : Bool
  messages : List (Nat × Msg)
  test : Option Obj → Bool

/-- The per-entry filter of `Affichan::_edit_messages_if_modified`:
`(self.test)(database.get(object_id)) &&
 database.get(object_id).is_some_and(|object| object.is_modified())`. -/
def isModifiedValid (test : Option Obj → Bool) (db : DB) (oid : Nat) : Bool :=
  test (lookupA db oid) &&
    ((lookupA db oid).map Obj.modified).getD false

/-- `Affichan::_edit_messages_if_modified`: attempts a remote edit for
every indexed entry passing `isModifiedValid` and returns the object ids
whose edit failed.  `editOk` is the remote-edit success oracle. -/
def edit_messages_if_modified (af : Affichan) (db : DB) (editOk : Nat → Bool) :
    List Nat :=
  (af.messages.filter (fun p => isModifiedValid af.test db p.1)).filterMap
    (fun p => if editOk p.1 then none else some p.1)

/-- The retention predicate of the `self.messages.retain` call in
`Affichan::update`: keep the entry when the id is still in the database,
still passes the test, and its edit did not fail. -/
def keepPred (test : Option Obj → Bool) (db : DB) (editFails : List Nat)
    (p : Nat × Msg) : Bool :=
  containsKey db p.1 && test (lookupA db p.1) && !(editFails.contains p.1)

/-- `Affichan::_get_new_valid_objects_from_db`: the database entries
passing the test and not yet indexed. -/
def get_new_valid_objects_from_db (msgs : List (Nat × Msg)) (db : DB)
    (test : Option Obj → Bool) : List (Nat × Obj) :=
  db.filter (fun p => test (some p.2) && !(containsKey msgs p.1))

/-- The fail-fast send batch of phase 3 of `Affichan::update`
(`buffered(4).try_collect`): `send` is the remote-send oracle, returning
the new message handle on success; the whole batch fails as soon as any
send fails. -/
def collectSends (send : Nat → Option Msg) :
    List (Nat × Obj) → Option (List (Nat × Msg))
  | [] => some []
  | p :: rest =>
    match send p.1, collectSends send rest with
    | some m, some l => some ((p.1, m) :: l)
    | _, _ => none

/-- `Affichan::update`: phase 1 edits modified entries collecting failed
ids, phase 2 prunes the index (spawning remote deletions, not modelled
here as they do not affect the index), phase 3 sends a message for every
new valid object, iterating the output of `sort_by_date` in reverse, and
extends the index with the new handles; a send failure makes the whole
call fail. -/
def update (af : Affichan) (db : DB) (editOk : Nat → Bool)
    (send : Nat → Option Msg) : Except Err Affichan :=
  let editFails := edit_messages_if_modified af db editOk
  let kept := af.messages.filter (keepPred af.test db editFails)
  let news := (sort_by_date (get_new_valid_objects_from_db kept db af.test)).reverse
  match collectSends send news with
  | some pairs => .ok { af with messages := kept ++ pairs }
  | none => .error .sendFailed

theorem collectSends_map_fst (send : Nat → Option Msg) :
    ∀ (l : List (Nat × Obj)) (pairs : List (Nat × Msg)),
      collectSends send l = some pairs → pairs.map Prod.fst = l.map Prod.fst := by
  intro l
  induction l with
  | nil =>
    intro pairs h
    simp [collectSends] at h
    simp [h.symm]
  | cons p rest ih =>
    intro pairs h
    rw [collectSends] at h
    match hs : send p.1, hc : collectSends send rest with
    | some m, some l0 =>
      rw [hs, hc] at h
      simp at h
      rw [h.symm]
      simp [ih l0 hc]
    | some _, none => rw [hs, hc] at h; simp at h
    | none, some _ => rw [hs, hc] at h; simp at h
    | none, none => rw [hs, hc] at h; simp at h

/-- Claim C1 (exclusion invariant): for every Affichan and database with
unique keys, if `update` returns Ok, then every id that is a key of the
messages index after the call is also a key of the database and the
membership test returns true on Some of that entity. -/
theorem update_exclusion (af : Affichan) (db : DB) (editOk : Nat → Bool)
    (send : Nat → Option Msg) (af2 : Affichan)
    (hnd : (db.map Prod.fst).Nodup)
    (hok : update af db editOk send = .ok af2) :
    ∀ oid ∈ af2.messages.map Prod.fst,
      ∃ e, lookupA db oid = some e ∧ af.test (some e) = true := by
  intro oid hmem
  rw [update] at hok
  set editFails := edit_messages_if_modified af db editOk with hef
  set kept := af.messages.filter (keepPred af.test db editFails) with hkept
  set news := (sort_by_date (get_new_valid_objects_from_db kept db af.test)).reverse
    with hnews
  match hc : collectSends send news with
  | none => rw [hc] at hok; exact absurd hok (by simp)
  | some pairs =>
    rw [hc] at hok
    simp only [Except.ok.injEq] at hok
    have hmsgs : af2.messages = kept ++ pairs := by rw [hok.symm]
    rw [hmsgs, List.map_append, List.mem_append] at hmem
    rcases hmem with hkeptmem | hpairsmem
    · obtain ⟨p, hp, hfst⟩ := List.mem_map.mp hkeptmem
      subst hfst
      have hfilt := List.of_mem_filter hp
      rw [keepPred] at hfilt
      simp only [Bool.and_eq_true] at hfilt
      obtain ⟨⟨hck, htest⟩, _⟩ := hfilt
      obtain ⟨e, he⟩ := containsKey_eq_true_iff.mp hck
      rw [he] at htest
      exact ⟨e, he, htest⟩
    · rw [collectSends_map_fst send news pairs hc] at hpairsmem
      rw [hnews, List.map_reverse, List.mem_reverse] at hpairsmem
      obtain ⟨p, hp, hfst⟩ := List.mem_map.mp hpairsmem
      rw [mem_sort_by_date_iff] at hp
      have hfilt := List.of_mem_filter hp
      simp only [Bool.and_eq_true] at hfilt
      have hpdb : p ∈ db := List.mem_of_mem_filter hp
      have hlk : lookupA db p.1 = some p.2 := lookupA_eq_some_of_mem hnd hpdb
      exact ⟨p.2, by rw [hfst.symm]; exact hlk, hfilt.1⟩

/-- Claim C2 (coverage invariant): for every Affichan and database whose
values carry their own key as id, if `update` returns Ok, then every
database entity passing the membership test has its id as a key of the
messages index after the call (ids pruned in the same call because their
edit failed are covered: they are re-sent in phase 3). -/
theorem update_coverage (af : Affichan) (db : DB) (editOk : Nat → Bool)
    (send : Nat → Option Msg) (af2 : Affichan)
    (hid : ∀ p ∈ db, (Prod.snd p).id = p.1)
    (hok : update af db editOk send = .ok af2) :
    ∀ p ∈ db, af.test (some p.2) = true →
      p.2.id ∈ af2.messages.map Prod.fst := by
  intro p hp htest
  rw [hid p hp]
  rw [update] at hok
  set editFails := edit_messages_if_modified af db editOk with hef
  set kept := af.messages.filter (keepPred af.test db editFails) with hkept
  set news := (sort_by_date (get_new_valid_objects_from_db kept db af.test)).reverse
    with hnews
  match hc : collectSends send news with
  | none => rw [hc] at hok; exact absurd hok (by simp)
  | some pairs =>
    rw [hc] at hok
    simp only [Except.ok.injEq] at hok
    have hmsgs : af2.messages = kept ++ pairs := by rw [hok.symm]
    rw [hmsgs, List.map_append, List.mem_append]
    by_cases hinkept : containsKey kept p.1 = true
    · exact Or.inl (containsKey_iff_mem_map_fst.mp hinkept)
    · refine Or.inr ?_
      rw [collectSends_map_fst send news pairs hc]
      rw [hnews, List.map_reverse, List.mem_reverse]
      refine List.mem_map.mpr ⟨p, ?_, rfl⟩
      rw [mem_sort_by_date_iff]
      rw [get_new_valid_objects_from_db]
      refine List.mem_filter.mpr ⟨hp, ?_⟩
      simp only [Bool.and_eq_true, Bool.not_eq_true']
      exact ⟨htest, Bool.not_eq_true _ ▸ hinkept⟩

/-- Concrete object of date 1 used by witnesses and counterexamples. -/
def oA : Obj := ⟨1, false, 1, 0⟩

/-- Concrete object of date 2. -/
def oB : Obj := ⟨2, false, 2, 0⟩

/-- Concrete object of date 3. -/
def oC : Obj := ⟨3, false, 3, 0⟩

/-- Concrete Affichan indexing object 1 with message handle 10. -/
def afW : Affichan := ⟨true, [(1, ⟨10⟩)], fun o => o.isSome⟩

/-- Concrete database holding objects 1 and 2. -/
def dbW : DB := [(1, oA), (2, oB)]

/-- Send oracle that always succeeds, handle `id + 100`. -/
def sendW : Nat → Option Msg := fun k => some ⟨k + 100⟩

/-- The Affichan state after a successful `update afW dbW`. -/
def afW2 : Affichan := { afW with messages := [(1, ⟨10⟩), (2, ⟨102⟩)] }

/-- Witness for C1 at a concrete instance: id 2 is indexed after the
update, and indeed the database holds it and it passes the test. -/
theorem update_exclusion_witness :
    (dbW.map Prod.fst).Nodup ∧
    (∃ e, lookupA dbW 2 = some e ∧ afW.test (some e) = true) :=
  ⟨by decide,
   update_exclusion afW dbW (fun _ => true) sendW afW2 (by decide) (by rfl)
     2 (by decide)⟩

/-- Witness for C2 at a concrete instance: object 2 passes the test and
its id is a key of the index after the update. -/
theorem update_coverage_witness :
    (∀ p ∈ dbW, (Prod.snd p).id = p.1) ∧
    oB.id ∈ afW2.messages.map Prod.fst :=
  ⟨by decide,
   update_coverage afW dbW (fun _ => true) sendW afW2 (by decide) (by rfl)
     (2, oB) (by decide) (by decide)⟩

/-- Concrete Affichan with an empty index. -/
def afE : Affichan := ⟨true, [], fun o => o.isSome⟩

/-- Concrete database with three entities of dates 1 < 2 < 3. -/
def dbABC : DB := [(1, oA), (2, oB), (3, oC)]

/-- Claim C3 (ordering law), evaluated at the failing input: three new
entities with dates 1 < 2 < 3, none indexed, all passing the test.
`sort_by_date` does not return them most-recent-first (contradicting its
own documentation comment, which promises a sort from most recent to
oldest), and `update` issues its sends in the order 1, 3, 2 rather than
the claimed oldest-first order 1, 2, 3. -/
theorem update_send_order_bug :
    (sort_by_date [(1, oA), (2, oB), (3, oC)]).map Prod.fst = [2, 3, 1] ∧
    (sort_by_date [(1, oA), (2, oB), (3, oC)]).map Prod.fst ≠ [3, 2, 1] ∧
    update afE dbABC (fun _ => true) sendW =
      .ok { afE with messages := [(1, Msg.mk 101), (3, Msg.mk 103), (2, Msg.mk 102)] } ∧
    [(1, Msg.mk 101), (3, Msg.mk 103), (2, Msg.mk 102)].map Prod.fst ≠ [1, 2, 3] := by
  exact ⟨by decide, by decide, by rfl, by decide⟩

/-- The bot state relevant to the undo history: the entity database
(`HashMap::get` as a function), the history deque (front = newest batch)
and the deferred-reconciliation flag `update_affichans`. -/
structure BotState where
  database : Nat → Option Obj
  history : List (List (Nat × Option Obj))
  update_affichans : Bool

/-- `Bot::archive`: when `ids` is non-empty, drop the oldest batch if
the history already holds at least 5, then push a batch of current
snapshots to the front; the `update_affichans` flag is set
unconditionally. -/
def archive (s : BotState) (ids : List Nat) : BotState :=
  let s1 :=
    if ids.isEmpty then s
    else
      { s with history :=
          (ids.map (fun id => (id, s.database id))) ::
            (if 5 ≤ s.history.length then s.history.dropLast else s.history) }
  { s1 with update_affichans := true }

/-- One entry of an undo batch applied to the database (the loop body of
`Bot::annuler`): a `some` snapshot is reinserted with
`modified := true`, a `none` snapshot removes the id. -/
def undoEntry (db : Nat → Option Obj) (p : Nat × Option Obj) : Nat → Option Obj :=
  match p.2 with
  | some e => fun j => if j = p.1 then some { e with modified := true } else db j
  | none => fun j => if j = p.1 then none else db j

/-- `Bot::annuler`: pop the newest batch and apply its entries in order;
return false and leave the state untouched when the history is empty. -/
def annuler (s : BotState) : Bool × BotState :=
  match s.history with
  | [] => (false, s)
  | batch :: rest =>
    (true,
      { s with
        database := batch.foldl undoEntry s.database
        history := rest
        update_affichans := true })

/-- Overwrite the entity stored at `id` (an arbitrary mutation performed
after an `archive` call). -/
def setEntity (s : BotState) (id : Nat) (e : Obj) : BotState :=
  { s with database := fun j => if j = id then some e else s.database j }

theorem foldl_undoEntry_not_mem (batch : List (Nat × Option Obj)) :
    ∀ (db : Nat → Option Obj) (j : Nat), j ∉ batch.map Prod.fst →
      batch.foldl undoEntry db j = db j := by
  induction batch with
  | nil => intro db j _; rfl
  | cons p rest ih =>
    intro db j hj
    simp only [List.map_cons, List.mem_cons] at hj
    push_neg at hj
    rw [List.foldl_cons, ih _ j hj.2]
    obtain ⟨k, snap⟩ := p
    cases snap with
    | some e => simp [undoEntry, hj.1]
    | none => simp [undoEntry, hj.1]

theorem foldl_undoEntry_mem (batch : List (Nat × Option Obj)) :
    ∀ db : Nat → Option Obj, (batch.map Prod.fst).Nodup →
      ∀ p ∈ batch,
        batch.foldl undoEntry db p.1 =
          match p.2 with
          | some e => some { e with modified := true }
          | none => none := by
  induction batch with
  | nil => intro db _ p hp; simp at hp
  | cons q rest ih =>
    intro db hnd p hp
    simp only [List.map_cons, List.nodup_cons] at hnd
    rcases List.mem_cons.mp hp with heq | htl
    · rw [heq.symm] at hnd
      rw [List.foldl_cons, foldl_undoEntry_not_mem rest _ p.1 hnd.1]
      rw [heq]
      obtain ⟨k, snap⟩ := q
      cases snap with
      | some e => simp [undoEntry]
      | none => simp [undoEntry]
    · rw [List.foldl_cons]
      exact ih _ hnd.2 p htl

/-- Claim C4 (undo contract): `annuler` pops the newest history batch;
for each `(id, snapshot)` of the batch, a `some e` snapshot reinserts
`e` at `id` with the modified flag set, a `none` snapshot removes `id`,
and other ids are untouched; it returns true, and returns false leaving
the state unchanged when the history is empty.  In particular
`archive [id]` followed by an arbitrary mutation of `id` and `annuler`
restores the exact pre-mutation entity with `modified = true`. -/
theorem annuler_contract :
    (∀ s : BotState, s.history = [] → annuler s = (false, s)) ∧
    (∀ (s : BotState) (batch : List (Nat × Option Obj))
        (rest : List (List (Nat × Option Obj))),
      s.history = batch :: rest →
      (annuler s).1 = true ∧ (annuler s).2.history = rest ∧
      ((batch.map Prod.fst).Nodup →
        (∀ id e, (id, some e) ∈ batch →
          (annuler s).2.database id = some { e with modified := true }) ∧
        (∀ id, (id, (none : Option Obj)) ∈ batch →
          (annuler s).2.database id = none) ∧
        (∀ id, id ∉ batch.map Prod.fst →
          (annuler s).2.database id = s.database id))) ∧
    (∀ (s : BotState) (id : Nat) (e enew : Obj),
      s.database id = some e →
      (annuler (setEntity (archive s [id]) id enew)).1 = true ∧
      (annuler (setEntity (archive s [id]) id enew)).2.database id =
        some { e with modified := true }) := by
  refine ⟨?_, ?_, ?_⟩
  · intro s hh
    rw [annuler, hh]
  · intro s batch rest hh
    rw [annuler, hh]
    refine ⟨rfl, rfl, ?_⟩
    intro hnd
    refine ⟨?_, ?_, ?_⟩
    · intro id e hmem
      exact foldl_undoEntry_mem batch s.database hnd (id, some e) hmem
    · intro id hmem
      exact foldl_undoEntry_mem batch s.database hnd (id, none) hmem
    · intro id hmem
      exact foldl_undoEntry_not_mem batch s.database id hmem
  · intro s id e enew hdb
    refine ⟨rfl, ?_⟩
    have h1 : (annuler (setEntity (archive s [id]) id enew)).2.database id =
        undoEntry (setEntity (archive s [id]) id enew).database
          (id, s.database id) id := rfl
    rw [h1, hdb]
    simp [undoEntry]

/-- Concrete bot state holding object `oA` at id 7 with empty history. -/
def sW : BotState := ⟨fun j => if j = 7 then some oA else none, [], false⟩

/-- Witness for C4 at a concrete state: archive id 7, overwrite it with
`oB`, undo; the original `oA` is restored with `modified = true`. -/
theorem annuler_contract_witness :
    sW.database 7 = some oA ∧
    (annuler (setEntity (archive sW [7]) 7 oB)).1 = true ∧
    (annuler (setEntity (archive sW [7]) 7 oB)).2.database 7 =
      some { oA with modified := true } :=
  ⟨rfl, (annuler_contract.2.2 sW 7 oA oB rfl).1,
    (annuler_contract.2.2 sW 7 oA oB rfl).2⟩

/-- An abstract call against the undo history. -/
inductive BotAct where
  | archiveCall (ids : List Nat)
  | annulerCall

/-- Run a sequence of `archive` and `annuler` calls. -/
def runActs (s : BotState) : List BotAct → BotState
  | [] => s
  | a :: rest =>
    runActs (match a with
      | .archiveCall ids => archive s ids
      | .annulerCall => (annuler s).2) rest

/-- The freshly constructed bot state (`Bot::default`): empty database,
empty history. -/
def bot0 : BotState := ⟨fun _ => none, [], false⟩

theorem archive_history_length_le (s : BotState) (ids : List Nat)
    (h : s.history.length ≤ 5) : (archive s ids).history.length ≤ 5 := by
  rw [archive]
  by_cases he : ids.isEmpty
  · simp [he]
    exact h
  · simp only [he, if_false, Bool.false_eq_true]
    by_cases h5 : 5 ≤ s.history.length
    · have hlen : s.history.length = 5 := le_antisymm h h5
      simp [h5, List.length_dropLast, hlen]
    · simp only [h5, if_false]
      simp only [List.length_cons]
      omega

theorem annuler_history_length_le (s : BotState) (h : s.history.length ≤ 5) :
    ((annuler s).2).history.length ≤ 5 := by
  rw [annuler]
  match hh : s.history with
  | [] => simp [hh]
  | batch :: rest =>
    simp only
    rw [hh] at h
    simp only [List.length_cons] at h
    omega

theorem runActs_history_le (acts : List BotAct) :
    ∀ s : BotState, s.history.length ≤ 5 →
      (runActs s acts).history.length ≤ 5 := by
  induction acts with
  | nil => intro s h; exact h
  | cons a rest ih =>
    intro s h
    match a with
    | .archiveCall ids => exact ih _ (archive_history_length_le s ids h)
    | .annulerCall => exact ih _ (annuler_history_length_le s h)

/-- Six successive `archive` calls with non-empty id lists. -/
def sixArch : List BotAct :=
  [.archiveCall [1], .archiveCall [2], .archiveCall [3],
   .archiveCall [4], .archiveCall [5], .archiveCall [6]]

/-- The bot state after the six archive calls. -/
def s6 : BotState := runActs bot0 sixArch

/-- Iterated `annuler`, keeping only the state. -/
def undoTimes (s : BotState) : Nat → BotState
  | 0 => s
  | n + 1 => undoTimes ((annuler s).2) n

/-- Claim C5 (bounded history): starting from a fresh bot, the history
never exceeds 5 batches under any sequence of archive and annuler
calls; six successive archives with non-empty id lists leave exactly 5
batches, after which five annuler calls succeed and the sixth returns
false. -/
theorem history_bounded :
    (∀ acts : List BotAct, (runActs bot0 acts).history.length ≤ 5) ∧
    s6.history.length = 5 ∧
    (annuler (undoTimes s6 0)).1 = true ∧
    (annuler (undoTimes s6 1)).1 = true ∧
    (annuler (undoTimes s6 2)).1 = true ∧
    (annuler (undoTimes s6 3)).1 = true ∧
    (annuler (undoTimes s6 4)).1 = true ∧
    (annuler (undoTimes s6 5)).1 = false := by
  refine ⟨fun acts => runActs_history_le acts bot0 (by simp [bot0]), ?_, ?_, ?_, ?_, ?_, ?_, ?_⟩
  · rfl
  · rfl
  · rfl
  · rfl
  · rfl
  · rfl
  · rfl

/-- `Affichan::remove`: Rust evaluates the `ok_or` error argument
eagerly, and that argument contains `self.chan.get()?`, so an unloaded
channel aborts first; then a missing index entry yields
`ObjectNotFound`; then the remote deletion runs (`deleteOk` oracle) and
only on its success is the id removed from the index.  The function
returns the call result paired with the resulting Affichan state. -/
def remove (af : Affichan) (deleteOk : Bool) (oid : Nat) :
    Except Err Unit × Affichan :=
  if af.chanLoaded then
    match lookupA af.messages oid with
    | none => (.error .objectNotFound, af)
    | some _ =>
      if deleteOk then (.ok (), { af with messages := removeKey af.messages oid })
      else (.error .deleteFailed, af)
  else (.error .unloadedItem, af)

/-- Claim C10 (atomicity of remove on error): with the channel loaded,
`remove` on an unindexed id fails with `ObjectNotFound` leaving the
index unchanged; on an indexed id whose remote deletion fails it
propagates the error leaving the index unchanged; the id is removed
from the index only when the remote deletion succeeds, and no other key
is affected. -/
theorem remove_atomic (af : Affichan) (deleteOk : Bool) (oid : Nat)
    (hch : af.chanLoaded = true) :
    (lookupA af.messages oid = none →
      remove af deleteOk oid = (.error .objectNotFound, af)) ∧
    (∀ m, lookupA af.messages oid = some m → deleteOk = false →
      remove af deleteOk oid = (.error .deleteFailed, af)) ∧
    (∀ m, lookupA af.messages oid = some m → deleteOk = true →
      (remove af deleteOk oid).1 = .ok () ∧
      lookupA (remove af deleteOk oid).2.messages oid = none ∧
      (∀ k, k ≠ oid →
        lookupA (remove af deleteOk oid).2.messages k = lookupA af.messages k)) := by
  refine ⟨?_, ?_, ?_⟩
  · intro hlk
    rw [remove, hch, hlk]
    rfl
  · intro m hlk hdel
    rw [remove, hch, hlk, hdel]
    rfl
  · intro m hlk hdel
    have hres : remove af deleteOk oid =
        (.ok (), { af with messages := removeKey af.messages oid }) := by
      rw [remove, hch, hlk, hdel]
      rfl
    rw [hres]
    exact ⟨rfl, lookupA_removeKey_self af.messages oid,
      fun k hk => lookupA_removeKey_ne af.messages oid k hk⟩

/-- Concrete Affichan used by the remove and deletion-recovery claims:
object 5 indexed under message handle 100. -/
def afR : Affichan := ⟨true, [(5, ⟨100⟩)], fun o => o.isSome⟩

/-- Witness for C10: deleting the remote message of id 5 fails, the call
propagates the error and the index still holds the entry; with a
successful deletion the entry disappears. -/
theorem remove_atomic_witness :
    afR.chanLoaded = true ∧
    remove afR false 5 = (.error .deleteFailed, afR) ∧
    lookupA (remove afR true 5).2.messages 5 = none :=
  ⟨rfl, (remove_atomic afR false 5 rfl).2.1 (Msg.mk 100) rfl rfl,
    ((remove_atomic afR true 5 rfl).2.2 (Msg.mk 100) rfl rfl).2.1⟩

/-- `Affichan::check_message_deletion`: looks for an index entry whose
message handle equals the deleted message id; when found, requires the
channel to be loaded and the entity to be present in the bot database,
then sends a fresh message for it.  The receiver is `&self`, so the
index is never modified; the result pairs the list of object ids for
which a fresh message was sent with the (unchanged) Affichan state. -/
def check_message_deletion (af : Affichan) (db : DB) (send : Nat → Option Msg)
    (mid : Nat) : Except Err (List Nat × Affichan) :=
  match af.messages.find? (fun p => p.2.id == mid) with
  | none => .ok ([], af)
  | some (oid, _) =>
    if af.chanLoaded then
      match lookupA db oid with
      | none => .error .objectNotFound
      | some _ =>
        match send oid with
        | some _ => .ok ([oid], af)
        | none => .error .sendFailed
    else .error .unloadedItem

/-- Database holding only object 5. -/
def db5 : DB := [(5, ⟨5, false, 1, 0⟩)]

/-- Send oracle producing the fresh handle 200. -/
def send200 : Nat → Option Msg := fun _ => some ⟨200⟩

/-- Counterexample to claim C9 as stated: message 100 (the indexed
handle of object 5) is reported deleted; a fresh message with handle 200
is sent, but the index entry for 5 still carries the old handle 100 —
the handle is not replaced by the handle of the new message. -/
theorem check_message_deletion_cex :
    check_message_deletion afR db5 send200 100 = .ok ([5], afR) ∧
    send200 5 = some (Msg.mk 200) ∧
    lookupA afR.messages 5 = some (Msg.mk 100) ∧
    Msg.mk 100 ≠ Msg.mk 200 := by
  exact ⟨rfl, rfl, rfl, by decide⟩

/-- Claim C9 amended: when the deleted message id matches an index
entry (channel loaded, entity present, send succeeds),
`check_message_deletion` sends exactly one fresh message for that
entity and returns with the index completely unchanged — the old
handle stays in the index, it is not replaced; when no entry matches,
the call is a no-op. -/
theorem check_message_deletion_spec (af : Affichan) (db : DB)
    (send : Nat → Option Msg) (mid : Nat) :
    (af.messages.find? (fun p => p.2.id == mid) = none →
      check_message_deletion af db send mid = .ok ([], af)) ∧
    (∀ oid m0, af.messages.find? (fun p => p.2.id == mid) = some (oid, m0) →
      af.chanLoaded = true →
      ∀ e, lookupA db oid = some e →
      ∀ mNew, send oid = some mNew →
      check_message_deletion af db send mid = .ok ([oid], af)) := by
  refine ⟨?_, ?_⟩
  · intro hf
    rw [check_message_deletion, hf]
  · intro oid m0 hf hch e hdb mNew hsend
    rw [check_message_deletion, hf]
    simp [hch, hdb, hsend]

/-- Witness for the amended C9 at a concrete instance. -/
theorem check_message_deletion_spec_witness :
    check_message_deletion afR db5 send200 100 = .ok ([5], afR) ∧
    check_message_deletion afR db5 send200 77 = .ok ([], afR) :=
  ⟨(check_message_deletion_spec afR db5 send200 100).2 5 (Msg.mk 100) rfl rfl
      ⟨5, false, 1, 0⟩ rfl (Msg.mk 200) rfl,
   (check_message_deletion_spec afR db5 send200 77).1 rfl⟩

/-- Minimal YAML values (`yaml_rust2::Yaml`): integers, strings, arrays,
hashes, and the `BadValue` returned by failed indexing. -/
inductive Yaml where
  | int (n : Int)
  | str (s : String)
  | arr (l : List Yaml)
  | hash (l : List (Yaml × Yaml))
  | bad

/-- `Yaml::as_vec`. -/
def Yaml.asVec : Yaml → Option (List Yaml)
  | .arr l => some l
  | _ => none

/-- `Yaml::as_i64`. -/
def Yaml.asI64 : Yaml → Option Int
  | .int n => some n
  | _ => none

/-- `Yaml::as_hash`. -/
def Yaml.asHash : Yaml → Option (List (Yaml × Yaml))
  | .hash l => some l
  | _ => none

/-- Hash lookup by string key, used by the `Index<&str>` impl. -/
def yamlFind (key : String) : List (Yaml × Yaml) → Yaml
  | [] => .bad
  | (k, v) :: rest =>
    match k with
    | .str s => if s = key then v else yamlFind key rest
    | _ => yamlFind key rest

/-- `yaml["key"]` (the `Index<&str>` impl): looks the String key up in a
hash; `BadValue` when the value is not a hash or the key is absent. -/
def Yaml.idx (y : Yaml) (key : String) : Yaml :=
  match y with
  | .hash l => yamlFind key l
  | _ => .bad

/-- The `as u64` cast of an `i64` (reinterpretation of the two-complement
i.e. reduction modulo 2^64). -/
def u64ofI64 (n : Int) : Nat := (n % (2 : Int) ^ 64).toNat

/-- The id pairs extracted by `_load_from_save` from a snapshot array:
non-hash entries are skipped with a warning, hash entries yield their
(possibly non-integer) `id` and `message_id` fields. -/
def yamlPairs (entries : List Yaml) : List (Option Int × Option Int) :=
  entries.filterMap (fun y =>
    match y.asHash with
    | some _ => some ((y.idx "id").asI64, (y.idx "message_id").asI64)
    | none => none)

/-- The fetch loop of `_load_from_save`
(`buffer_unordered(4).try_collect`): an entry with a non-integer id or
message id is fatal (`YamlParseError` for the whole batch); a failed
remote fetch only turns its pair into `none`, to be dropped. -/
def fetchAll (fetch : Int → Option Msg) :
    List (Option Int × Option Int) → Except Err (List (Option (Nat × Msg)))
  | [] => .ok []
  | q :: rest =>
    match q.1, q.2 with
    | some oid, some mid =>
      match fetchAll fetch rest with
      | .ok l =>
        .ok ((match fetch mid with
          | some m => some (u64ofI64 oid, m)
          | none => none) :: l)
      | .error e => .error e
    | _, _ => .error .yamlParse

/-- `Affichan::_load_from_save`: requires the snapshot to be an array,
extracts the id pairs, fetches every listed message and keeps the pairs
whose fetch succeeded. -/
def load_from_save (saved : Yaml) (fetch : Int → Option Msg) :
    Except Err (List (Nat × Msg)) :=
  match saved.asVec with
  | none => .error .yamlParse
  | some entries =>
    match fetchAll fetch (yamlPairs entries) with
    | .ok results => .ok (results.filterMap id)
    | .error e => .error e

/-- `Affichan::init` restricted to the snapshot path: the channel is
loaded (`_load`), the index is built by `_load_from_save`, then a full
`update` runs. -/
def init_from_save (af : Affichan) (db : DB) (saved : Yaml)
    (fetch : Int → Option Msg) (editOk : Nat → Bool)
    (send : Nat → Option Msg) : Except Err Affichan :=
  match load_from_save saved fetch with
  | .ok msgs => update { af with chanLoaded := true, messages := msgs } db editOk send
  | .error e => .error e

theorem fetchAll_ok_of_wf (fetch : Int → Option Msg) :
    ∀ ps : List (Option Int × Option Int),
      (∀ q ∈ ps, q.1.isSome ∧ q.2.isSome) →
      ∃ l, fetchAll fetch ps = .ok l := by
  intro ps
  induction ps with
  | nil => intro _; exact ⟨[], rfl⟩
  | cons q rest ih =>
    intro hwf
    obtain ⟨h1, h2⟩ := hwf q (List.mem_cons_self _ _)
    obtain ⟨oid, hoid⟩ := Option.isSome_iff_exists.mp h1
    obtain ⟨mid, hmid⟩ := Option.isSome_iff_exists.mp h2
    obtain ⟨l, hl⟩ := ih (fun p hp => hwf p (List.mem_cons_of_mem _ hp))
    refine ⟨(match fetch mid with
      | some m => some (u64ofI64 oid, m)
      | none => none) :: l, ?_⟩
    rw [fetchAll, hoid, hmid, hl]

theorem fetchAll_ok_sound (fetch : Int → Option Msg) :
    ∀ (ps : List (Option Int × Option Int)) (l : List (Option (Nat × Msg))),
      fetchAll fetch ps = .ok l →
      ∀ x ∈ l, ∀ pm : Nat × Msg, x = some pm →
        ∃ oid mid, (some oid, some mid) ∈ ps ∧
          pm.1 = u64ofI64 oid ∧ fetch mid = some pm.2 := by
  intro ps
  induction ps with
  | nil =>
    intro l hl x hx pm hpm
    rw [fetchAll] at hl
    simp only [Except.ok.injEq] at hl
    rw [hl.symm] at hx
    simp at hx
  | cons q rest ih =>
    intro l hl x hx pm hpm
    rw [fetchAll] at hl
    match h1 : q.1, h2 : q.2 with
    | some oid, some mid =>
      rw [h1, h2] at hl
      match hrec : fetchAll fetch rest with
      | .ok l0 =>
        rw [hrec] at hl
        simp only [Except.ok.injEq] at hl
        rw [hl.symm] at hx
        rcases List.mem_cons.mp hx with hhead | htail
        · match hf : fetch mid with
          | some m =>
            rw [hf] at hhead
            rw [hpm] at hhead
            simp only [Option.some.injEq] at hhead
            refine ⟨oid, mid, ?_, ?_, ?_⟩
            · have : q = (some oid, some mid) := by
                rw [Prod.ext_iff]
                exact ⟨h1, h2⟩
              rw [this.symm]
              exact List.mem_cons_self _ _
            · rw [hhead]
            · rw [hf, hhead]
          | none =>
            rw [hf] at hhead
            rw [hpm] at hhead
            simp at hhead
        · obtain ⟨oid0, mid0, hmem, hfst, hfetch⟩ :=
            ih l0 hrec x htail pm hpm
          exact ⟨oid0, mid0, List.mem_cons_of_mem _ hmem, hfst, hfetch⟩
      | .error e =>
        rw [hrec] at hl
        simp at hl
    | some _, none => rw [h1, h2] at hl; simp at hl
    | none, some _ => rw [h1, h2] at hl; simp at hl
    | none, none => rw [h1, h2] at hl; simp at hl

theorem fetchAll_error_of_bad (fetch : Int → Option Msg) :
    ∀ ps : List (Option Int × Option Int),
      (∃ q ∈ ps, q.1 = none ∨ q.2 = none) →
      fetchAll fetch ps = .error .yamlParse := by
  intro ps
  induction ps with
  | nil => intro h; simp at h
  | cons q rest ih =>
    intro h
    rw [fetchAll]
    match h1 : q.1, h2 : q.2 with
    | some oid, some mid =>
      have hrest : ∃ p ∈ rest, p.1 = none ∨ p.2 = none := by
        obtain ⟨p, hp, hbad⟩ := h
        rcases List.mem_cons.mp hp with heq | htl
        · rw [heq, h1, h2] at hbad
          rcases hbad with hb | hb <;> simp at hb
        · exact ⟨p, htl, hbad⟩
      rw [ih hrest]
    | some _, none => rfl
    | none, some _ => rfl
    | none, none => rfl

/-- The snapshot `[{id: 7, message_id: 99}]` of the spec scenario. -/
def snap7 : Yaml :=
  .arr [.hash [(.str "id", .int 7), (.str "message_id", .int 99)]]

/-- A snapshot whose entry has a non-integer entity id. -/
def snapBad : Yaml :=
  .arr [.hash [(.str "id", .str "seven"), (.str "message_id", .int 99)]]

/-- Fetch oracle failing on every message id. -/
def fetchFail : Int → Option Msg := fun _ => none

/-- Claim C6 (snapshot-recovery error policy of init): a failed remote
fetch is never fatal — `_load_from_save` succeeds whenever every hash
entry carries integer ids, and every pair of the resulting index stems
from a successful fetch, so a pair whose fetch failed is absent;
whereas a hash entry whose entity id or message id is not an integer
makes the whole `init` call return the YAML-parse error.  At the spec
scenario (snapshot `[{id:7, messageId:99}]`, fetch of 99 fails), `init`
returns Ok with an index not containing 7. -/
theorem init_snapshot_error_policy :
    (∀ (entries : List Yaml) (fetch : Int → Option Msg),
      (∀ q ∈ yamlPairs entries, q.1.isSome ∧ q.2.isSome) →
      ∃ l, load_from_save (.arr entries) fetch = .ok l) ∧
    (∀ (entries : List Yaml) (fetch : Int → Option Msg)
        (l : List (Nat × Msg)),
      load_from_save (.arr entries) fetch = .ok l →
      ∀ p ∈ l, ∃ oid mid, (some oid, some mid) ∈ yamlPairs entries ∧
        p.1 = u64ofI64 oid ∧ fetch mid = some p.2) ∧
    (∀ (af : Affichan) (db : DB) (entries : List Yaml)
        (fetch : Int → Option Msg) (editOk : Nat → Bool)
        (send : Nat → Option Msg),
      (∃ q ∈ yamlPairs entries, q.1 = none ∨ q.2 = none) →
      init_from_save af db (.arr entries) fetch editOk send =
        .error .yamlParse) ∧
    (init_from_save afE [] snap7 fetchFail (fun _ => true) sendW =
      .ok { afE with chanLoaded := true, messages := [] }) := by
  refine ⟨?_, ?_, ?_, ?_⟩
  · intro entries fetch hwf
    obtain ⟨l, hl⟩ := fetchAll_ok_of_wf fetch (yamlPairs entries) hwf
    refine ⟨l.filterMap id, ?_⟩
    simp [load_from_save, Yaml.asVec, hl]
  · intro entries fetch l hl p hp
    rw [load_from_save] at hl
    simp only [Yaml.asVec] at hl
    match hrec : fetchAll fetch (yamlPairs entries) with
    | .ok results =>
      rw [hrec] at hl
      simp only [Except.ok.injEq] at hl
      rw [hl.symm] at hp
      obtain ⟨x, hx, hxp⟩ := List.mem_filterMap.mp hp
      exact fetchAll_ok_sound fetch (yamlPairs entries) results hrec x hx p hxp
    | .error e =>
      rw [hrec] at hl
      simp at hl
  · intro af db entries fetch editOk send hbad
    have herr := fetchAll_error_of_bad fetch (yamlPairs entries) hbad
    simp [init_from_save, load_from_save, Yaml.asVec, herr]
  · rfl

/-- Witness for C6: a snapshot entry with a string entity id makes the
whole init call fail with the YAML-parse error. -/
theorem init_snapshot_error_policy_witness :
    (∃ q ∈ yamlPairs [Yaml.hash [(Yaml.str "id", Yaml.str "seven"),
        (Yaml.str "message_id", Yaml.int 99)]], q.1 = none ∨ q.2 = none) ∧
    init_from_save afE [] snapBad fetchFail (fun _ => true) sendW =
      .error .yamlParse :=
  ⟨by decide,
   init_snapshot_error_policy.2.2.1 afE []
     [Yaml.hash [(Yaml.str "id", Yaml.str "seven"),
        (Yaml.str "message_id", Yaml.int 99)]]
     fetchFail (fun _ => true) sendW (by decide)⟩

/-- A message found by the channel-history scan: its message id, its
author, whether it has an embed, and the entity id that the footer of
its first embed parses to (when there is a footer and it parses). -/
structure ScanMsg where
  id : Nat
  authorId : Nat
  hasEmbed : Bool
  footerId : Option Nat
deriving Repr

/-- `HashMap::insert` on an association list (replace or append). -/
def insertA {α : Type} : List (Nat × α) → Nat → α → List (Nat × α)
  | [], k, v => [(k, v)]
  | p :: rest, k, v => if p.1 = k then (k, v) :: rest else p :: insertA rest k v

/-- Collecting an iterator of pairs into a `HashMap`: later pairs
overwrite earlier ones with the same key. -/
def hashCollect {α : Type} (ps : List (Nat × α)) : List (Nat × α) :=
  ps.foldl (fun acc p => insertA acc p.1 p.2) []

/-- `Affichan::_load_from_messages`: keep the bot-authored scanned
messages carrying an embed whose footer parses as an entity id; a
message whose entity is in the database and not already indexed in the
PRIOR index (`let self_messages = &self.messages`, i.e. the map as it
was before init, empty on a fresh start — not the map being built) is
kept; otherwise the message is deleted.  Returns the collected index
(later duplicates silently overwrite earlier ones) together with the
ids of the deleted messages. -/
def load_from_messages (prior : List (Nat × Msg)) (db : DB) (selfId : Nat)
    (scanned : List ScanMsg) : List (Nat × Msg) × List Nat :=
  let eligible := (scanned.filter
      (fun m => m.authorId == selfId && m.hasEmbed)).filterMap
    (fun m => m.footerId.map (fun fid => (m, fid)))
  let results := eligible.map (fun q =>
    match lookupA db q.2 with
    | some obj =>
      if containsKey prior obj.id then Sum.inr q.1.id
      else Sum.inl (obj.id, Msg.mk q.1.id)
    | none => Sum.inr q.1.id)
  (hashCollect (results.filterMap (fun r => r.getLeft?)),
   results.filterMap (fun r => r.getRight?))

/-- Two bot-authored scanned messages (author 9), both tagged with
entity id 5 in their embed footers. -/
def scanDup : List ScanMsg :=
  [⟨100, 9, true, some 5⟩, ⟨101, 9, true, some 5⟩]

/-- Claim C7 (duplicate-message scenario), evaluated at the failing
input: on a fresh init (empty prior index) the scan of two bot messages
both tagged with entity 5 leaves exactly one of them (the later one) in
the index, but deletes NEITHER message — the duplicate check consults
the pre-init index instead of the map being built, so the claimed
deletion of the extra message never happens on a fresh start; deletion
fires only against entries of the stale prior index (second
conjunct). -/
theorem load_from_messages_duplicate_bug :
    load_from_messages [] db5 9 scanDup = ([(5, Msg.mk 101)], []) ∧
    load_from_messages [(5, Msg.mk 50)] db5 9 scanDup = ([], [100, 101]) := by
  exact ⟨by decide, by decide⟩

/-- Observable remote events of one `update` call. -/
inductive Ev where
  | edit (oid : Nat)
  | delDone (oid : Nat)
  | send (oid : Nat)
deriving DecidableEq, Repr

/-- Whether an event is a phase-1 edit. -/
def Ev.isEdit : Ev → Bool
  | .edit _ => true
  | _ => false

/-- The ids whose remote edit is attempted in phase 1 of `update`. -/
def editAttemptIds (af : Affichan) (db : DB) : List Nat :=
  (af.messages.filter (fun p => isModifiedValid af.test db p.1)).map Prod.fst

/-- The ids pruned in phase 2 of `update`, whose remote deletions are
spawned. -/
def prunedIds (af : Affichan) (db : DB) (editOk : Nat → Bool) : List Nat :=
  (af.messages.filter (fun p =>
    !(keepPred af.test db (edit_messages_if_modified af db editOk) p))).map
    Prod.fst

/-- The ids sent in phase 3 of `update`, in send order. -/
def sendIds (af : Affichan) (db : DB) (editOk : Nat → Bool) : List Nat :=
  ((sort_by_date (get_new_valid_objects_from_db
      (af.messages.filter (keepPred af.test db
        (edit_messages_if_modified af db editOk))) db af.test)).reverse).map
    Prod.fst

/-- Interleavings of two event sequences. -/
inductive Interleave {α : Type} : List α → List α → List α → Prop
  | nil : Interleave [] [] []
  | left {x : α} {xs ys zs : List α} :
      Interleave xs ys zs → Interleave (x :: xs) ys (x :: zs)
  | right {y : α} {xs ys zs : List α} :
      Interleave xs ys zs → Interleave xs (y :: ys) (y :: zs)

/-- The admissible global event traces of one `update` call: the main
task awaits all phase-1 edits (`join_all`), then prunes the index and
spawns the remote deletions into a detached task (`tokio::spawn`,
not awaited), then issues the phase-3 sends in order; the spawned
deletion completions interleave arbitrarily with the sends. -/
def updateTrace (af : Affichan) (db : DB) (editOk : Nat → Bool)
    (t : List Ev) : Prop :=
  ∃ u, Interleave ((sendIds af db editOk).map Ev.send)
      ((prunedIds af db editOk).map Ev.delDone) u ∧
    t = (editAttemptIds af db).map Ev.edit ++ u

theorem interleave_mem {α : Type} {xs ys zs : List α}
    (h : Interleave xs ys zs) : ∀ z ∈ zs, z ∈ xs ∨ z ∈ ys := by
  induction h with
  | nil => intro z hz; simp at hz
  | left h ih =>
    intro z hz
    rcases List.mem_cons.mp hz with heq | htl
    · rw [heq]; exact Or.inl (List.mem_cons_self _ _)
    · rcases ih z htl with h1 | h2
      · exact Or.inl (List.mem_cons_of_mem _ h1)
      · exact Or.inr h2
  | right h ih =>
    intro z hz
    rcases List.mem_cons.mp hz with heq | htl
    · rw [heq]; exact Or.inr (List.mem_cons_self _ _)
    · rcases ih z htl with h1 | h2
      · exact Or.inl h1
      · exact Or.inr (List.mem_cons_of_mem _ h2)

theorem editsComeFirst :
    ∀ (t1 : List Ev) (E u t3 : List Ev) (a : Nat),
      (∀ z ∈ E, z.isEdit = true) → (∀ z ∈ u, z.isEdit = false) →
      E ++ u = t1 ++ Ev.edit a :: t3 → ∀ x ∈ t1, x.isEdit = true := by
  intro t1
  induction t1 with
  | nil => intro E u t3 a _ _ _ x hx; simp at hx
  | cons x0 t1 ih =>
    intro E u t3 a hE hu heq x hx
    match E with
    | [] =>
      simp only [List.nil_append] at heq
      have hmem : Ev.edit a ∈ u := by
        rw [heq]
        exact List.mem_cons_of_mem _ (List.mem_append_right _ (List.mem_cons_self _ _))
      have := hu _ hmem
      simp [Ev.isEdit] at this
    | e :: E1 =>
      simp only [List.cons_append, List.cons.injEq] at heq
      rcases List.mem_cons.mp hx with hxe | hxt
      · rw [hxe, heq.1.symm]
        exact hE e (List.mem_cons_self _ _)
      · exact ih E1 u t3 a (fun z hz => hE z (List.mem_cons_of_mem _ hz)) hu
          heq.2 x hxt

/-- Claim C8 amended: in every admissible trace of one `update` call,
every event preceding a phase-1 edit event is itself an edit event —
all phase-1 remote edits complete before phase 2 and phase 3 produce
any event.  The remote deletions of phase 2, however, run in a
detached spawned task, so they need not complete before the phase-3
sends are issued (see the counterexample). -/
theorem update_phase_ordering (af : Affichan) (db : DB) (editOk : Nat → Bool)
    (t : List Ev) (ht : updateTrace af db editOk t) :
    ∀ (t1 : List Ev) (a : Nat) (t3 : List Ev),
      t = t1 ++ Ev.edit a :: t3 → ∀ x ∈ t1, x.isEdit = true := by
  obtain ⟨u, hint, hteq⟩ := ht
  intro t1 a t3 heq x hx
  have hE : ∀ z ∈ (editAttemptIds af db).map Ev.edit, z.isEdit = true := by
    intro z hz
    obtain ⟨k, _, hk⟩ := List.mem_map.mp hz
    rw [hk.symm]
    rfl
  have hu : ∀ z ∈ u, z.isEdit = false := by
    intro z hz
    rcases interleave_mem hint z hz with h1 | h2
    · obtain ⟨k, _, hk⟩ := List.mem_map.mp h1
      rw [hk.symm]
      rfl
    · obtain ⟨k, _, hk⟩ := List.mem_map.mp h2
      rw [hk.symm]
      rfl
  rw [hteq] at heq
  exact editsComeFirst t1 _ u t3 a hE hu heq x hx

/-- Affichan indexing the stale object 2 (message 20). -/
def afC : Affichan := ⟨true, [(2, ⟨20⟩)], fun o => o.isSome⟩

/-- Database containing only object 1: object 2 will be pruned and
object 1 freshly sent by `update`. -/
def dbC : DB := [(1, oA)]

/-- Counterexample to claim C8 as stated: the trace in which the
phase-3 send of object 1 is issued before the spawned phase-2 deletion
of object 2 completes is admissible, refuting the claim that all
phase-2 remote work completes before the first phase-3 send. -/
theorem update_phase_ordering_cex :
    updateTrace afC dbC (fun _ => true) [Ev.send 1, Ev.delDone 2] ∧
    ¬ (∀ (t1 : List Ev) (a : Nat) (t2 : List Ev) (b : Nat) (t3 : List Ev),
        ([Ev.send 1, Ev.delDone 2] : List Ev) ≠
          t1 ++ Ev.send a :: t2 ++ Ev.delDone b :: t3) := by
  constructor
  · refine ⟨[Ev.send 1, Ev.delDone 2], ?_, by decide⟩
    have hs : (sendIds afC dbC (fun _ => true)).map Ev.send = [Ev.send 1] := by
      decide
    have hd : (prunedIds afC dbC (fun _ => true)).map Ev.delDone =
        [Ev.delDone 2] := by decide
    rw [hs, hd]
    exact Interleave.left (Interleave.right Interleave.nil)
  · intro h
    exact h [] 1 [] 2 [] rfl

/-- Affichan indexing object 1, which is modified in the database, so
phase 1 attempts exactly one edit. -/
def afD : Affichan := ⟨true, [(1, ⟨10⟩)], fun o => o.isSome⟩

/-- Database holding object 1 with the modified flag set. -/
def dbD : DB := [(1, ⟨1, true, 1, 0⟩)]

/-- Witness for the amended C8 at a concrete instance whose only trace
is the single phase-1 edit. -/
theorem update_phase_ordering_witness :
    updateTrace afD dbD (fun _ => true) [Ev.edit 1] ∧
    (∀ x ∈ ([] : List Ev), x.isEdit = true) := by
  have hadm : updateTrace afD dbD (fun _ => true) [Ev.edit 1] := by
    refine ⟨[], ?_, by decide⟩
    have hs : (sendIds afD dbD (fun _ => true)).map Ev.send = [] := by decide
    have hd : (prunedIds afD dbD (fun _ => true)).map Ev.delDone = [] := by
      decide
    rw [hs, hd]
    exact Interleave.nil
  exact ⟨hadm,
    update_phase_ordering afD dbD (fun _ => true) [Ev.edit 1] hadm
      [] 1 [] rfl⟩
